import Mathlib

/-!
Shallow embedding of `pyemu/utils/optimization.py` (the helper `to_mps`, the
only function of the repository, together with the two operator tables at the
top of the file).  Python floats are idealized as rationals, Python strings as
`String`, Python dicts as insertion-ordered association lists, and raised
exceptions as an explicit error type threaded through `Except`.  External
collaborators that are not part of this repository's source (the control-file
parser `pyemu.Pst` loaded from disk, the binary matrix loader, scipy's
`erfinv`, `numpy.sqrt` and the `pyemu.Schur` uncertainty propagation) enter as
oracle parameters, documented where they are introduced.
-/

namespace PyEmuOpt

/-- Python `str.lower()` (ASCII behaviour, which is what pest names use). -/
def pyLower (s : String) : String := String.mk (s.data.map Char.toLower)

/-- Python slicing `name[:n]`. -/
def pyTake (s : String) (n : Nat) : String := String.mk (s.data.take n)

/-- The exceptions `to_mps` can raise (`raise Exception`, bare `assert`,
dict `KeyError`, `list.index` `ValueError`, the unbound-local `NameError`,
and `raise NotImplementedError`). -/
inductive PyErr where
  | exception (msg : String)
  | assertionError (msg : String)
  | keyError (key : String)
  | valueError (msg : String)
  | nameError (var : String)
  | notImplementedError (msg : String)
deriving DecidableEq, Repr

/-- Key membership test of a Python dict modelled as an association list. -/
def hasKey {α : Type} (d : List (String × α)) (k : String) : Bool :=
  d.any (fun p => decide (p.1 = k))

/-- Python dict subscript `d[k]`: the stored value, or a `KeyError`. -/
def dget {α : Type} : List (String × α) → String → Except PyErr α
  | [], k => .error (.keyError k)
  | p :: rest, k => if p.1 = k then .ok p.2 else dget rest k

/-- Total variant of `dget` used in theorem statements (the default is never
reached where the statements use it, because the key is present). -/
def dgetD {α : Type} (d : List (String × α)) (k : String) (dflt : α) : α :=
  match dget d k with
  | .ok v => v
  | .error _ => dflt

/-- Python dict assignment `d[k] = v`: overwrite in place, else append. -/
def dset {α : Type} : List (String × α) → String → α → List (String × α)
  | [], k, v => [(k, v)]
  | p :: rest, k, v => if p.1 = k then (k, v) :: rest else p :: dset rest k v

/-- Python `d.pop(k)`: the value and the remaining dict, or `none` (KeyError). -/
def dpop {α : Type} : List (String × α) → String → Option (α × List (String × α))
  | [], _ => none
  | p :: rest, k =>
    if p.1 = k then some (p.2, rest)
    else
      match dpop rest k with
      | none => none
      | some (v, d') => some (v, p :: d')

/-- First index of `k` in `l` (meaningful only when `k` is a member). -/
def list_index : List String → String → Nat
  | [], _ => 0
  | x :: xs, k => if x = k then 0 else list_index xs k + 1

/-- Python `l.index(x)`: the first index, or a `ValueError`. -/
def py_index (l : List String) (x : String) : Except PyErr Nat :=
  if l.contains x then .ok (list_index l x) else .error (.valueError x)

/-- Effectful map over a list, stopping at the first raised exception. -/
def emap {α β : Type} (f : α → Except PyErr β) : List α → Except PyErr (List β)
  | [] => .ok []
  | a :: rest =>
    match f a with
    | .error e => .error e
    | .ok b =>
      match emap f rest with
      | .error e => .error e
      | .ok bs => .ok (b :: bs)

/-- Effectful concat-map over a list, stopping at the first raised exception. -/
def eflat {α β : Type} (f : α → Except PyErr (List β)) : List α → Except PyErr (List β)
  | [] => .ok []
  | a :: rest =>
    match f a with
    | .error e => .error e
    | .ok bs =>
      match eflat f rest with
      | .error e => .error e
      | .ok bs' => .ok (bs ++ bs')

/-- `pyemu.Matrix`: row names, column names and the dense coefficient grid
(`jco.x`).  Only the fields `to_mps` reads are modelled. -/
structure Matrix where
  row_names : List String
  col_names : List String
  x : List (List ℚ)
deriving DecidableEq, Repr

/-- `jco.x[i, j]` (all accesses in the source are made at valid indices
obtained from `list.index` on the name lists). -/
def Matrix.entry (m : Matrix) (i j : Nat) : ℚ := (m.x.getD i []).getD j 0

/-- The `jco` argument of `to_mps`: either a filename (lines 46-48, in which
case `Matrix.from_binary` loads it — the loader is an external collaborator,
so the matrix it yields is carried alongside the name) or an in-memory
`Matrix`. -/
inductive JcoArg where
  | path (fname : String) (loaded : Matrix)
  | mat (m : Matrix)
deriving DecidableEq, Repr

/-- The matrix `to_mps` works with after line 49. -/
def JcoArg.matrix : JcoArg → Matrix
  | .path _ m => m
  | .mat m => m

/-- One row of `pst.parameter_data`: the fields read at lines 255 and 264-265. -/
structure ParRec where
  parval1 : ℚ
  parubnd : ℚ
  parlbnd : ℚ
deriving DecidableEq, Repr

/-- Modelled from the spec: the control-file metadata object `pyemu.Pst`
(its class is not part of this repository's analyzed source; the spec
describes it as per-observation group membership, per-parameter bounds and
current value, and a residuals table keyed by observation name).
`observation_data` is the list of `(obsnme, obgnme)` pairs in file order,
`parameter_data` maps parameter names to their records, `res` is the optional
residuals table (`name -> residual`). -/
structure Pst where
  filename : String
  observation_data : List (String × String)
  parameter_data : List (String × ParRec)
  res : Option (List (String × ℚ))
deriving DecidableEq, Repr

/-- `pst.obs_names` / `pst.observation_data.index`. -/
def Pst.obs_names (pst : Pst) : List String := pst.observation_data.map Prod.fst

/-- `pst.parameter_data.index`. -/
def Pst.par_names (pst : Pst) : List String := pst.parameter_data.map Prod.fst

/-- Modelled from the spec: `pst.obs_groups`, the observation group tags
present in the control file (duplicates removed; only membership and
filtering of this list are consumed by `to_mps`). -/
def Pst.obs_groups (pst : Pst) : List String :=
  (pst.observation_data.map Prod.snd).dedup

/-- The names carried by `pst.res` (`obs_name in pst.res.name`, line 103). -/
def Pst.res_names (pst : Pst) : List String :=
  match pst.res with
  | none => []
  | some r => r.map Prod.fst

/-- Modelled from the spec: the pandas group of observation names carrying a
given group tag (`pst.observation_data.groupby(...).groups[g]`), in file
order. -/
def group_members (pst : Pst) (g : String) : List String :=
  (pst.observation_data.filter (fun p => decide (p.2 = g))).map Prod.fst

/-- `pst.res.loc[n, "residual"]` (lines 214 and 231; `unc_pst` at line 205
keeps the residuals table of `pst`, parameter subsetting does not touch it). -/
def res_lookup (pst : Pst) (n : String) : Except PyErr ℚ :=
  match pst.res with
  | none => .error (.keyError n)
  | some r => dget r n

/-- The `obj_func` argument: `None`, an observation name, or a
name-to-coefficient dict (lines 20-24 of the docstring). -/
inductive ObjFunc where
  | unspecified
  | named (s : String)
  | mapping (d : List (String × ℚ))
deriving DecidableEq, Repr

/-- The `decision_var_names` argument when not `None`: a caller-supplied list
(mutated in place) or a single non-list value wrapped into a fresh list at
lines 72-73. -/
inductive DecVarArg where
  | list (l : List String)
  | single (s : String)
deriving DecidableEq, Repr

/-- One line written to the mps file (lines 236-270), with the fixed-width
text formatting abstracted to the structured content of each line. -/
inductive MpsLine where
  | nameLine (label : String)
  | rowsHeader
  | rowEntry (op nm : String)
  | columnsHeader
  | colEntry (var row : String) (v : ℚ)
  | rhsHeader
  | rhsEntry (vec row : String) (v : ℚ)
  | boundsHeader
  | boundEntry (btype bset nm : String) (v : ℚ)
  | endata
deriving DecidableEq, Repr

/-- `OPERATOR_WORDS` (line 7). -/
def OPERATOR_WORDS : List String := ["l", "g", "n", "e"]

/-- `OPERATOR_SYMBOLS` (line 8). -/
def OPERATOR_SYMBOLS : List String := ["<=", ">=", "=", "="]

/-- Lines 105-112: normalization of one constraint-sense token. -/
def parse_operator (operator : String) : Except PyErr String :=
  if OPERATOR_WORDS.contains (pyLower operator) then .ok (pyLower operator)
  else if OPERATOR_SYMBOLS.contains operator then
    .ok (OPERATOR_WORDS.getD (list_index OPERATOR_SYMBOLS operator) "")
  else
    .error (.exception ("operator " ++ operator ++ " not in [l,g,n,e] or [<=,>=,=,=]"))

/-- Line 47: the conventional control-file name derived from the jco path. -/
def derive_pst_name (s : String) : String :=
  ((pyLower s).replace ".jcb" ".pst").replace ".jco" ".pst"

/-- Lines 45-64: resolve the `pst` argument.  `fs` is the external
control-file-parser collaborator: the `Pst` that `Pst(pst_name)` would load
for a path, or `none` when `os.path.exists` fails.  When `jco` was passed as
an in-memory matrix and `pst` is `None`, the local `pst_name` was never
assigned, so line 53 raises an unbound-local `NameError`. -/
def resolve_pst (fs : String → Option Pst) (jcoArg : JcoArg) (pst0 : Option Pst) :
    Except PyErr Pst :=
  let res_check : Pst → Except PyErr Pst := fun pst =>
    match pst.res with
    | none => .error (.assertionError
        (" could find a residuals file (.res or .rei) for for control file " ++ pst.filename))
    | some _ => .ok pst
  match pst0 with
  | none =>
    match jcoArg with
    | .mat _ => .error (.nameError "pst_name")
    | .path s _ =>
      match fs (derive_pst_name s) with
      | some pst => res_check pst
      | none => .error (.exception
          ("could not find pst file " ++ derive_pst_name s ++
           " and pst argument is None, a pst instance is required for setting decision variable bound constraints"))
  | some pst =>
    if jcoArg.matrix.row_names.all (fun n => pst.obs_names.contains n) then
      if jcoArg.matrix.col_names.all (fun n => pst.par_names.contains n) then
        res_check pst
      else .error (.assertionError "")
    else .error (.assertionError "")

/-- Lines 74-78: lower-case each entry of `decision_var_names` in place, then
validate it.  Returns the final visible contents of the caller's list (the
entries before the failure point are already replaced) and the first raised
error, if any. -/
def lower_loop (jco : Matrix) (pst : Pst) : List String → List String × Option PyErr
  | [] => ([], none)
  | dv :: rest =>
    let dv' := pyLower dv
    if jco.col_names.contains dv' then
      if pst.par_names.contains dv' then
        let r := lower_loop jco pst rest
        (dv' :: r.1, r.2)
      else (dv' :: rest, some (.assertionError ("decision var " ++ dv' ++ " not in pst parameter names")))
    else (dv' :: rest, some (.assertionError ("decision var " ++ dv' ++ " not in jco column names")))

/-- Lines 66-78: resolve `decision_var_names`.  First component: the final
contents of the caller-supplied list when one was provided (`None` and the
wrapped single value leave no caller-visible list).  Second component: the
resolved decision-variable name list. -/
def dec_stage (jco : Matrix) (pst : Pst) :
    Option DecVarArg → Option (List String) × Except PyErr (List String)
  | none => (none, .ok jco.col_names)
  | some (.single s) =>
    let r := lower_loop jco pst [s]
    (none, match r.2 with
      | some e => .error e
      | none => .ok r.1)
  | some (.list l) =>
    let r := lower_loop jco pst l
    (some r.1, match r.2 with
      | some e => .error e
      | none => .ok r.1)

/-- Lines 87-93: build the constraint-sense dict from the observation groups
(iteration order of the pandas groupby keys only affects the key order of the
built dict, never its key set, which is all that is consumed downstream). -/
def infer_build (pst : Pst) (const_groups : List String) : List String → List (String × String)
  | [] => []
  | og :: rest =>
    if og = "n" then infer_build pst const_groups rest
    else if const_groups.contains og then
      (group_members pst og).map (fun o => (o, og)) ++ infer_build pst const_groups rest
    else infer_build pst const_groups rest

/-- Lines 81-93: the `obs_constraint_sense is None` branch. -/
def infer_senses (pst : Pst) : Except PyErr (List (String × String)) :=
  let const_groups := pst.obs_groups.filter (fun g => OPERATOR_WORDS.contains (pyLower g))
  if const_groups.isEmpty then
    .error (.exception "to_mps(): obs_constraint_sense is None and no obseravtion groups")
  else .ok (infer_build pst const_groups pst.obs_groups)

/-- Lines 99-115: the loop over `obs_constraint_sense.items()`.  `snap` is
the snapshot being iterated, the second argument the current dict contents,
the third the `operators` dict being built.  Note that line 101 rebinds
`obs_name` to its lower-cased form before line 114 pops `obs_name` from the
dict, so the pop looks up the lower-cased key.  Returns the final dict
contents, the operators dict and the first raised error, if any. -/
def senses_loop (pst : Pst) (jco : Matrix) :
    List (String × String) → List (String × String) → List (String × String) →
    List (String × String) × List (String × String) × Option PyErr
  | [], d, ops => (d, ops, none)
  | (k, v) :: snap, d, ops =>
    let k' := pyLower k
    if pst.obs_names.contains k' then
      if pst.res_names.contains k' then
        if jco.row_names.contains k' then
          match parse_operator v with
          | .error e => (d, ops, some e)
          | .ok op =>
            let ops' := dset ops k' op
            match dpop d k' with
            | none => (d, ops', some (.keyError k'))
            | some (pv, d') => senses_loop pst jco snap (dset d' (pyLower k') pv) ops'
        else (d, ops, some (.assertionError ("obs constraint " ++ k' ++ " not in jco row names")))
      else (d, ops, some (.assertionError " obs constraint {0} not in pst.res names"))
    else (d, ops, some (.assertionError "obs constraint {0} not in pst observation names"))

/-- Lines 81-115: resolve `obs_constraint_sense` and build `operators`.
First component: the final contents of the caller-supplied dict when one was
provided.  Second: the final dict together with `operators`. -/
def senses_stage (jco : Matrix) (pst : Pst) :
    Option (List (String × String)) →
    Option (List (String × String)) ×
      Except PyErr (List (String × String) × List (String × String))
  | none =>
    match infer_senses pst with
    | .error e => (none, .error e)
    | .ok d0 =>
      if d0.isEmpty then (none, .error (.assertionError "no obs_constraints..."))
      else
        let r := senses_loop pst jco d0 d0 []
        (none, match r.2.2 with
          | some e => .error e
          | none => .ok (r.1, r.2.1))
  | some d0 =>
    if d0.isEmpty then (some d0, .error (.assertionError "no obs_constraints..."))
    else
      let r := senses_loop pst jco d0 d0 []
      (some r.1, match r.2.2 with
        | some e => .error e
        | none => .ok (r.1, r.2.1))

/-- Lines 125-147: the name-shortening loop (used once per namespace with an
independent counter starting at 0). -/
def shorten_go (c : Nat) : List String → List (String × String)
  | [] => []
  | n :: rest =>
    if n.length > 8 then (n, pyTake n 7 ++ toString c) :: shorten_go (c + 1) rest
    else (n, n) :: shorten_go c rest

/-- The original-to-shortened name mapping for one namespace. -/
def shorten_names (names : List String) : List (String × String) := shorten_go 0 names

/-- Lines 162-164 and 176-178: objective coefficients read out of matrix row `i`. -/
def obj_coeffs_from_row (jco : Matrix) (i : Nat) (od : List String) : List (String × ℚ) :=
  od.map (fun nm => (nm, jco.entry i (list_index jco.col_names nm)))

/-- Lines 183-187: validate the explicit mapping's keys against the matrix
column names and take the coefficients as given. -/
def mapping_loop (jco : Matrix) : List (String × ℚ) → Except PyErr (List (String × ℚ))
  | [] => .ok []
  | (nm, v) :: rest =>
    if jco.col_names.contains nm then
      match mapping_loop jco rest with
      | .error e => .error e
      | .ok r => .ok ((nm, v) :: r)
    else .error (.assertionError ("to_mps(): obj_func key " ++ nm ++ " not in jco col names"))

/-- Lines 149-191: build the in-memory objective dict and the objective row
name from the `obj_func` argument. -/
def build_obj (jco : Matrix) (pst : Pst) (od : List String) :
    ObjFunc → Except PyErr (List (String × ℚ) × String)
  | .unspecified =>
    if pst.obs_groups.contains "n" then
      let ns := group_members pst "n"
      if ns.length = 1 then
        let obj_name := ns.headD ""
        match py_index jco.row_names obj_name with
        | .error e => .error e
        | .ok i => .ok (obj_coeffs_from_row jco i od, obj_name)
      else .error (.assertionError
        "to_mps(): n obj_func group has more  than one member, mps only support one obj")
    else .error (.exception "to_mps(): obj_func is None but no obs group named n")
  | .named s =>
    let s' := pyLower s
    if jco.row_names.contains s' then
      if pst.obs_names.contains s' then
        .ok (obj_coeffs_from_row jco (list_index jco.row_names s') od, s')
      else .error (.assertionError ("obj_func " ++ s' ++ " not in pst observations"))
    else .error (.assertionError ("obj_func " ++ s' ++ " not in jco.row_names"))
  | .mapping d =>
    match mapping_loop jco d with
    | .error e => .error e
    | .ok obj => .ok (obj, "obj_func")

/-- The Python float literal `0.5` of lines 193 and 13 (written through
`mkRat` so that the kernel can evaluate comparisons against it). -/
def half : ℚ := mkRat 1 2

/-- Line 212: `probit_val = np.sqrt(2.0) * erfinv((2.0 * risk) - 1.0)`.
`sqrt2` stands for the external `np.sqrt(2.0)` and `erfinv` for
`scipy.special.erfinv`, both external numerical collaborators. -/
def probit_val (sqrt2 : ℚ) (erfinv : ℚ → ℚ) (risk : ℚ) : ℚ :=
  sqrt2 * erfinv (2 * risk - 1)

/-- Lines 213-229: the chance-constraint loop.  `stdO` is the per-constraint
posterior standard deviation; `pv` the probit value. -/
def rhs_loop (stdO : String → ℚ) (pst : Pst) (ops : List (String × String)) (pv : ℚ) :
    List String → Except PyErr (List (String × ℚ))
  | [] => .ok []
  | n :: rest =>
    match res_lookup pst n with
    | .error e => .error e
    | .ok mu =>
      let std := stdO n
      match dget ops n with
      | .error e => .error e
      | .ok op =>
        if op = "l" then
          match rhs_loop stdO pst ops pv rest with
          | .error e => .error e
          | .ok r => .ok ((n, mu - pv * std) :: r)
        else if op = "g" then
          match rhs_loop stdO pst ops pv rest with
          | .error e => .error e
          | .ok r => .ok ((n, mu + pv * std) :: r)
        else .error (.notImplementedError
          ("chance constraints only implemented for l or g type constraints, not " ++ op))

/-- Lines 193-231: the RHS values.  `stdO` is modelled from the spec: the
posterior standard deviation per constraint produced by the Schur-complement
uncertainty-propagation collaborator (`pyemu.Schur` over the non-decision
columns, line 204-207), which is not part of the analyzed source. -/
def compute_rhs (stdO : String → ℚ) (sqrt2 : ℚ) (erfinv : ℚ → ℚ) (jco : Matrix) (pst : Pst)
    (dvs oc : List String) (ops : List (String × String)) (risk : ℚ) :
    Except PyErr (List (String × ℚ)) :=
  if risk = half then emap (fun n => (res_lookup pst n).map (fun v => (n, v))) oc
  else if (jco.col_names.filter (fun n => !(dvs.contains n))).isEmpty then
    .error (.exception "to_mps() error: risk != 0.5, but no non-decision vars parameters ")
  else
    rhs_loop stdO pst ops (probit_val sqrt2 erfinv risk) oc

/-- Lines 239-241: the constraint lines of the ROWS section. -/
def rows_lines (ops ncn : List (String × String)) (oc : List String) :
    Except PyErr (List MpsLine) :=
  emap (fun n =>
    match dget ops n with
    | .error e => .error e
    | .ok op =>
      match dget ncn n with
      | .error e => .error e
      | .ok nm => .ok (MpsLine.rowEntry op nm)) oc

/-- Lines 247-252: the per-constraint coefficient lines of one decision
variable's COLUMNS block. -/
def col_entry_lines (jco : Matrix) (ncn : List (String × String)) (dnm : String)
    (jidx : Nat) (oc : List String) : Except PyErr (List MpsLine) :=
  emap (fun cname =>
    match dget ncn cname with
    | .error e => .error e
    | .ok cnm =>
      .ok (MpsLine.colEntry dnm cnm (jco.entry (list_index jco.row_names cname) jidx))) oc

/-- Lines 244-255: the COLUMNS section.  For each decision variable, one line
per constraint with the matrix coefficient, then one objective line whose
value is `pst.parameter_data.loc[dname, "parval1"]`. -/
def col_lines (jco : Matrix) (pst : Pst) (oc od : List String)
    (ncn ndn : List (String × String)) (obj_name : String) :
    Except PyErr (List MpsLine) :=
  eflat (fun dname =>
    match dget ndn dname with
    | .error e => .error e
    | .ok dnm =>
      match col_entry_lines jco ncn dnm (list_index jco.col_names dname) oc with
      | .error e => .error e
      | .ok ls =>
        match dget pst.parameter_data dname with
        | .error e => .error e
        | .ok pd => .ok (ls ++ [MpsLine.colEntry dnm obj_name pd.parval1])) od

/-- Lines 257-261: the RHS section. -/
def rhs_lines (ncn : List (String × String)) (rhsd : List (String × ℚ)) (oc : List String) :
    Except PyErr (List MpsLine) :=
  emap (fun n =>
    match dget ncn n with
    | .error e => .error e
    | .ok cnm =>
      match dget rhsd n with
      | .error e => .error e
      | .ok v => .ok (MpsLine.rhsEntry "rhs" cnm v)) oc

/-- Lines 262-269: the BOUNDS section.  Note that the written name is the
original `name`, not `new_decision_names[name]`. -/
def bounds_lines (pst : Pst) (od : List String) : Except PyErr (List MpsLine) :=
  eflat (fun nm =>
    match dget pst.parameter_data nm with
    | .error e => .error e
    | .ok pd => .ok [MpsLine.boundEntry "UP" "BOUND" nm pd.parubnd,
                     MpsLine.boundEntry "LO" "BOUND" nm pd.parlbnd]) od

/-- Lines 236-270: the whole file body, as the ordered list of written lines. -/
def write_lines (jco : Matrix) (pst : Pst) (oc od : List String)
    (ops ncn ndn : List (String × String)) (obj_name : String)
    (rhsd : List (String × ℚ)) : Except PyErr (List MpsLine) :=
  match rows_lines ops ncn oc with
  | .error e => .error e
  | .ok rls =>
    match col_lines jco pst oc od ncn ndn obj_name with
    | .error e => .error e
    | .ok cls =>
      match rhs_lines ncn rhsd oc with
      | .error e => .error e
      | .ok rhls =>
        match bounds_lines pst od with
        | .error e => .error e
        | .ok bls =>
          .ok ([MpsLine.nameLine "pest_opt", MpsLine.rowsHeader] ++ rls ++
               [MpsLine.rowEntry "n" obj_name, MpsLine.columnsHeader] ++ cls ++
               [MpsLine.rhsHeader] ++ rhls ++
               [MpsLine.boundsHeader] ++ bls ++ [MpsLine.endata])

/-- The data observable of a successful run: the written lines, the resolved
intermediates of the pipeline, and the output filename. -/
structure MpsResult where
  lines : List MpsLine
  jco_used : Matrix
  pst_used : Pst
  dec_resolved : List String
  sense_final : List (String × String)
  operators : List (String × String)
  order_obs_constraints : List String
  order_dec_var : List String
  new_constraint_names : List (String × String)
  new_decision_names : List (String × String)
  obj : List (String × ℚ)
  obj_name : String
  rhs : List (String × ℚ)
  mps_filename : String
deriving DecidableEq, Repr

instance {ε α : Type} [DecidableEq ε] [DecidableEq α] : DecidableEq (Except ε α) := fun x y =>
  match x, y with
  | .ok a, .ok b =>
    if h : a = b then isTrue (by rw [h]) else isFalse (fun hc => h (Except.ok.inj hc))
  | .error a, .error b =>
    if h : a = b then isTrue (by rw [h]) else isFalse (fun hc => h (Except.error.inj hc))
  | .ok _, .error _ => isFalse (fun hc => Except.noConfusion hc)
  | .error _, .ok _ => isFalse (fun hc => Except.noConfusion hc)

/-- The full observable outcome of one call: the result (or raised error)
together with the final contents of the caller-supplied mutable arguments
(`decision_var_names` list and `obs_constraint_sense` dict), which the caller
sees after the call whether or not it succeeded. -/
structure Outcome where
  result : Except PyErr MpsResult
  dec_out : Option (List String)
  sense_out : Option (List (String × String))
deriving DecidableEq, Repr

/-- The function `to_mps` (lines 11-270).  Oracle arguments: `fs` the
control-file loader, `stdO` the Schur posterior standard deviations, `sqrt2`
and `erfinv` the external numerical routines. -/
def to_mps (fs : String → Option Pst) (stdO : String → ℚ) (sqrt2 : ℚ) (erfinv : ℚ → ℚ)
    (jcoArg : JcoArg) (obj_func : ObjFunc) (ocs0 : Option (List (String × String)))
    (pst0 : Option Pst) (dvn0 : Option DecVarArg) (mps0 : Option String) (risk : ℚ) :
    Outcome :=
  let dec0 : Option (List String) :=
    match dvn0 with
    | some (.list l) => some l
    | _ => none
  match resolve_pst fs jcoArg pst0 with
  | .error e => ⟨.error e, dec0, ocs0⟩
  | .ok pst =>
    let jco := jcoArg.matrix
    match dec_stage jco pst dvn0 with
    | (dOut, .error e) => ⟨.error e, dOut, ocs0⟩
    | (dOut, .ok dvs) =>
      match senses_stage jco pst ocs0 with
      | (sOut, .error e) => ⟨.error e, dOut, sOut⟩
      | (sOut, .ok (sFinal, ops)) =>
        let oc := jco.row_names.filter (fun n => hasKey sFinal n)
        let od := jco.col_names.filter (fun n => dvs.contains n)
        let ncn := shorten_names oc
        let ndn := shorten_names od
        match build_obj jco pst od obj_func with
        | .error e => ⟨.error e, dOut, sOut⟩
        | .ok (objd, obj_name) =>
          match compute_rhs stdO sqrt2 erfinv jco pst dvs oc ops risk with
          | .error e => ⟨.error e, dOut, sOut⟩
          | .ok rhsd =>
            let mpsname :=
              match mps0 with
              | some s => s
              | none => pst.filename.replace ".pst" ".mps"
            match write_lines jco pst oc od ops ncn ndn obj_name rhsd with
            | .error e => ⟨.error e, dOut, sOut⟩
            | .ok lines =>
              ⟨.ok ⟨lines, jco, pst, dvs, sFinal, ops, oc, od, ncn, ndn,
                    objd, obj_name, rhsd, mpsname⟩, dOut, sOut⟩

/-- Whether a line is a constraint/objective row entry of the ROWS section. -/
def isRowEntry : MpsLine → Bool
  | .rowEntry _ _ => true
  | _ => false

/-- The row-entry lines of the ROWS section of a written file. -/
def rowsSection (lines : List MpsLine) : List MpsLine :=
  ((lines.dropWhile (fun l => !(decide (l = MpsLine.rowsHeader)))).drop 1).takeWhile isRowEntry

/-- The lines of a successful outcome (empty on failure; used to state
concrete evaluations). -/
def result_lines (o : Outcome) : List MpsLine :=
  match o.result with
  | .ok r => r.lines
  | .error _ => []

instance : Inhabited Pst := ⟨⟨"", [], [], none⟩⟩

instance : Inhabited MpsResult := ⟨⟨[], ⟨[], [], []⟩, default, [], [], [], [], [], [], [], [], "", [], ""⟩⟩

/-- The result of a successful outcome (used by witnesses to name the
concrete `MpsResult` a concrete run produces). -/
def ok_result (o : Outcome) : MpsResult :=
  match o.result with
  | .ok r => r
  | .error _ => default

/-! ## Helper lemmas about the dict and iteration combinators -/

theorem dget_ok_dgetD {α : Type} {d : List (String × α)} {k : String} {v : α} (dflt : α)
    (h : dget d k = .ok v) : dgetD d k dflt = v := by
  simp [dgetD, h]

theorem emap_ok_ex {α β : Type} {f : α → Except PyErr β} {l : List α} {ys : List β}
    (h : emap f l = .ok ys) : ∀ a ∈ l, ∃ b, f a = .ok b := by
  induction l generalizing ys with
  | nil => intro a ha; cases ha
  | cons x rest ih =>
    intro a ha
    cases hfx : f x with
    | error e => simp [emap, hfx] at h
    | ok b =>
      cases hr : emap f rest with
      | error e => simp [emap, hfx, hr] at h
      | ok bs =>
        rcases List.mem_cons.mp ha with rfl | ha'
        · exact ⟨b, hfx⟩
        · exact ih hr a ha'

theorem emap_ok_map {α β : Type} {f : α → Except PyErr β} {g : α → β} {l : List α}
    {ys : List β} (h : emap f l = .ok ys) (hg : ∀ a ∈ l, f a = .ok (g a)) :
    ys = l.map g := by
  induction l generalizing ys with
  | nil => simp [emap] at h; simp [h.symm]
  | cons x rest ih =>
    cases hfx : f x with
    | error e => simp [emap, hfx] at h
    | ok b =>
      cases hr : emap f rest with
      | error e => simp [emap, hfx, hr] at h
      | ok bs =>
        simp [emap, hfx, hr] at h
        have hb : b = g x := by
          have := hg x (List.mem_cons_self x rest)
          rw [hfx] at this
          exact Except.ok.inj this
        have hbs : bs = rest.map g := ih hr (fun a ha => hg a (List.mem_cons_of_mem x ha))
        simp [← h, hb, hbs]

theorem emap_ok_mem {α β : Type} {f : α → Except PyErr β} {l : List α} {ys : List β}
    (h : emap f l = .ok ys) {a : α} (ha : a ∈ l) {b : β} (hb : f a = .ok b) :
    b ∈ ys := by
  induction l generalizing ys with
  | nil => cases ha
  | cons x rest ih =>
    cases hfx : f x with
    | error e => simp [emap, hfx] at h
    | ok b' =>
      cases hr : emap f rest with
      | error e => simp [emap, hfx, hr] at h
      | ok bs =>
        simp [emap, hfx, hr] at h
        rcases List.mem_cons.mp ha with rfl | ha'
        · rw [hfx] at hb
          simp [← h, Except.ok.inj hb]
        · simp [← h]
          exact Or.inr (ih hr ha')

theorem eflat_cons_ok {α β : Type} {f : α → Except PyErr (List β)} {a : α} {rest : List α}
    {ys : List β} (h : eflat f (a :: rest) = .ok ys) :
    ∃ bs bs', f a = .ok bs ∧ eflat f rest = .ok bs' ∧ ys = bs ++ bs' := by
  cases hfa : f a with
  | error e => simp [eflat, hfa] at h
  | ok bs =>
    cases hr : eflat f rest with
    | error e => simp [eflat, hfa, hr] at h
    | ok bs' =>
      simp [eflat, hfa, hr] at h
      exact ⟨bs, bs', rfl, rfl, h.symm⟩

/-! ## Structure of a successfully written file -/

theorem write_lines_ok {jco : Matrix} {pst : Pst} {oc od : List String}
    {ops ncn ndn : List (String × String)} {obj_name : String}
    {rhsd : List (String × ℚ)} {lines : List MpsLine}
    (h : write_lines jco pst oc od ops ncn ndn obj_name rhsd = .ok lines) :
    ∃ rls cls rhls bls,
      rows_lines ops ncn oc = .ok rls ∧
      col_lines jco pst oc od ncn ndn obj_name = .ok cls ∧
      rhs_lines ncn rhsd oc = .ok rhls ∧
      bounds_lines pst od = .ok bls ∧
      lines = [MpsLine.nameLine "pest_opt", MpsLine.rowsHeader] ++ rls ++
              [MpsLine.rowEntry "n" obj_name, MpsLine.columnsHeader] ++ cls ++
              [MpsLine.rhsHeader] ++ rhls ++
              [MpsLine.boundsHeader] ++ bls ++ [MpsLine.endata] := by
  cases h1 : rows_lines ops ncn oc with
  | error e => simp [write_lines, h1] at h
  | ok rls =>
    cases h2 : col_lines jco pst oc od ncn ndn obj_name with
    | error e => simp [write_lines, h1, h2] at h
    | ok cls =>
      cases h3 : rhs_lines ncn rhsd oc with
      | error e => simp [write_lines, h1, h2, h3] at h
      | ok rhls =>
        cases h4 : bounds_lines pst od with
        | error e => simp [write_lines, h1, h2, h3, h4] at h
        | ok bls =>
          simp [write_lines, h1, h2, h3, h4] at h
          refine ⟨rls, cls, rhls, bls, rfl, rfl, rfl, rfl, ?_⟩
          simpa using h.symm

theorem rows_lines_ok_map {ops ncn : List (String × String)} {oc : List String}
    {rls : List MpsLine} (h : rows_lines ops ncn oc = .ok rls) :
    rls = oc.map (fun n => MpsLine.rowEntry (dgetD ops n "") (dgetD ncn n "")) := by
  apply emap_ok_map h
  intro n hn
  obtain ⟨b, hb⟩ := emap_ok_ex h n hn
  cases hop : dget ops n with
  | error e => rw [hop] at hb; simp at hb
  | ok op =>
    cases hnm : dget ncn n with
    | error e => rw [hop, hnm] at hb; simp at hb
    | ok nm =>
      have e1 := dget_ok_dgetD "" hop
      have e2 := dget_ok_dgetD "" hnm
      simp [hop, hnm, e1, e2]

theorem takeWhile_all_append {p : MpsLine → Bool} {l1 : List MpsLine}
    (h1 : ∀ x ∈ l1, p x = true) {y : MpsLine} (hy : p y = false) (l2 : List MpsLine) :
    List.takeWhile p (l1 ++ y :: l2) = l1 := by
  induction l1 with
  | nil => simp [List.takeWhile_cons, hy]
  | cons a l ih =>
    simp only [List.cons_append, List.takeWhile_cons, h1 a (List.mem_cons_self a l),
      if_true, List.cons.injEq, true_and]
    exact ih (fun x hx => h1 x (List.mem_cons_of_mem a hx))

theorem rowsSection_struct {rls : List MpsLine} (h : ∀ x ∈ rls, isRowEntry x = true)
    (objn : String) (rest : List MpsLine) :
    rowsSection ([MpsLine.nameLine "pest_opt", MpsLine.rowsHeader] ++
        (rls ++ ([MpsLine.rowEntry "n" objn, MpsLine.columnsHeader] ++ rest)))
      = rls ++ [MpsLine.rowEntry "n" objn] := by
  have hall : ∀ x ∈ rls ++ [MpsLine.rowEntry "n" objn], isRowEntry x = true := by
    intro x hx
    rcases List.mem_append.mp hx with hx' | hx'
    · exact h x hx'
    · simp at hx'
      subst hx'
      rfl
  have hstop : isRowEntry MpsLine.columnsHeader = false := rfl
  have := takeWhile_all_append hall hstop rest
  unfold rowsSection
  simp only [List.cons_append, List.dropWhile_cons]
  norm_num
  simpa using this

theorem rowsSection_write {jco : Matrix} {pst : Pst} {oc od : List String}
    {ops ncn ndn : List (String × String)} {objn : String} {rhsd : List (String × ℚ)}
    {lines : List MpsLine}
    (h : write_lines jco pst oc od ops ncn ndn objn rhsd = .ok lines) :
    rowsSection lines
      = oc.map (fun n => MpsLine.rowEntry (dgetD ops n "") (dgetD ncn n "")) ++
        [MpsLine.rowEntry "n" objn] := by
  obtain ⟨rls, cls, rhls, bls, h1, _, _, _, hl⟩ := write_lines_ok h
  subst hl
  have hmap := rows_lines_ok_map h1
  subst hmap
  have hall : ∀ x ∈ oc.map (fun n => MpsLine.rowEntry (dgetD ops n "") (dgetD ncn n "")),
      isRowEntry x = true := by
    intro x hx
    rcases List.mem_map.mp hx with ⟨n, _, rfl⟩
    rfl
  have := rowsSection_struct hall objn
    (cls ++ [MpsLine.rhsHeader] ++ rhls ++ [MpsLine.boundsHeader] ++ bls ++ [MpsLine.endata])
  simpa [List.append_assoc] using this

theorem col_lines_obj_mem {jco : Matrix} {pst : Pst} {oc od : List String}
    {ncn ndn : List (String × String)} {objn : String} {cls : List MpsLine}
    (h : col_lines jco pst oc od ncn ndn objn = .ok cls) {dn : String} (hdn : dn ∈ od)
    {pd : ParRec} (hpd : dget pst.parameter_data dn = .ok pd) :
    MpsLine.colEntry (dgetD ndn dn "") objn pd.parval1 ∈ cls := by
  induction od generalizing cls with
  | nil => cases hdn
  | cons d rest ih =>
    obtain ⟨bs, bs', hfd, hrest, rfl⟩ := eflat_cons_ok h
    rcases List.mem_cons.mp hdn with rfl | hdn'
    · cases hndn : dget ndn dn with
      | error e => simp only [hndn] at hfd; exact Except.noConfusion hfd
      | ok dnm =>
        simp only [hndn] at hfd
        cases hcel : col_entry_lines jco ncn dnm (list_index jco.col_names dn) oc with
        | error e => simp only [hcel] at hfd; exact Except.noConfusion hfd
        | ok ls =>
          simp only [hcel] at hfd
          cases hpd' : dget pst.parameter_data dn with
          | error e => simp only [hpd'] at hfd; exact Except.noConfusion hfd
          | ok pd' =>
            simp only [hpd', Except.ok.injEq] at hfd
            rw [hpd'] at hpd
            have hpdeq : pd' = pd := Except.ok.inj hpd
            subst hpdeq
            rw [dget_ok_dgetD "" hndn]
            rw [← hfd]
            simp
    · exact List.mem_append_right bs (ih hrest hdn')

theorem rhs_lines_mem {ncn : List (String × String)} {rhsd : List (String × ℚ)}
    {oc : List String} {rhls : List MpsLine} (h : rhs_lines ncn rhsd oc = .ok rhls)
    {n : String} (hn : n ∈ oc) {cnm : String} (hcnm : dget ncn n = .ok cnm) {v : ℚ}
    (hv : dget rhsd n = .ok v) : MpsLine.rhsEntry "rhs" cnm v ∈ rhls := by
  apply emap_ok_mem h hn
  rw [hcnm, hv]

theorem shorten_go_key {n : String} : ∀ {names : List String} {c : Nat}, n ∈ names →
    ∃ s, dget (shorten_go c names) n = .ok s
  | [], _, hn => absurd hn (List.not_mem_nil n)
  | m :: rest, c, hn => by
    by_cases hmn : m = n
    · subst hmn
      unfold shorten_go
      split
      · exact ⟨pyTake m 7 ++ toString c, by simp [dget]⟩
      · exact ⟨m, by simp [dget]⟩
    · have hn' : n ∈ rest := by
        rcases List.mem_cons.mp hn with h | h
        · exact absurd h.symm hmn
        · exact h
      unfold shorten_go
      split
      · obtain ⟨s, hs⟩ := shorten_go_key (c := c + 1) hn'
        exact ⟨s, by simp [dget, hmn, hs]⟩
      · obtain ⟨s, hs⟩ := shorten_go_key (c := c) hn'
        exact ⟨s, by simp [dget, hmn, hs]⟩

theorem shorten_names_key {names : List String} {n : String} (hn : n ∈ names) :
    ∃ s, dget (shorten_names names) n = .ok s := shorten_go_key hn

/-! ## Pipeline inversion: what a successful call establishes -/

theorem to_mps_ok {fs : String → Option Pst} {stdO : String → ℚ} {sqrt2 : ℚ}
    {erfinv : ℚ → ℚ} {jcoArg : JcoArg} {obj_func : ObjFunc}
    {ocs0 : Option (List (String × String))} {pst0 : Option Pst}
    {dvn0 : Option DecVarArg} {mps0 : Option String} {risk : ℚ} {r : MpsResult}
    (h : (to_mps fs stdO sqrt2 erfinv jcoArg obj_func ocs0 pst0 dvn0 mps0 risk).result
          = .ok r) :
    resolve_pst fs jcoArg pst0 = .ok r.pst_used ∧
    r.jco_used = jcoArg.matrix ∧
    (dec_stage jcoArg.matrix r.pst_used dvn0).2 = .ok r.dec_resolved ∧
    (senses_stage jcoArg.matrix r.pst_used ocs0).2 = .ok (r.sense_final, r.operators) ∧
    r.order_obs_constraints
      = jcoArg.matrix.row_names.filter (fun n => hasKey r.sense_final n) ∧
    r.order_dec_var
      = jcoArg.matrix.col_names.filter (fun n => r.dec_resolved.contains n) ∧
    r.new_constraint_names = shorten_names r.order_obs_constraints ∧
    r.new_decision_names = shorten_names r.order_dec_var ∧
    build_obj jcoArg.matrix r.pst_used r.order_dec_var obj_func = .ok (r.obj, r.obj_name) ∧
    compute_rhs stdO sqrt2 erfinv jcoArg.matrix r.pst_used r.dec_resolved
      r.order_obs_constraints r.operators risk = .ok r.rhs ∧
    write_lines jcoArg.matrix r.pst_used r.order_obs_constraints r.order_dec_var
      r.operators r.new_constraint_names r.new_decision_names r.obj_name r.rhs
      = .ok r.lines := by
  simp only [to_mps] at h
  split at h
  · simp at h
  · rename_i pst hA
    split at h
    · simp at h
    · rename_i dOut dvs hB
      split at h
      · simp at h
      · rename_i sOut sFinal ops hC
        split at h
        · simp at h
        · rename_i objd obj_name hD
          split at h
          · simp at h
          · rename_i rhsd hE
            split at h
            · simp at h
            · rename_i lines hF
              simp only [Except.ok.injEq] at h
              subst h
              exact ⟨hA, rfl, by rw [hB], by rw [hC], rfl, rfl, rfl, rfl, hD, hE, hF⟩

/-! ## Further stage lemmas -/

theorem dget_cons_ne {α : Type} {m n : String} {v : α} {d : List (String × α)}
    (h : m ≠ n) : dget ((m, v) :: d) n = dget d n := by
  simp [dget, h]

theorem emap_cons_ok {α β : Type} {f : α → Except PyErr β} {a : α} {rest : List α}
    {ys : List β} (h : emap f (a :: rest) = .ok ys) :
    ∃ b bs, f a = .ok b ∧ emap f rest = .ok bs ∧ ys = b :: bs := by
  cases hfa : f a with
  | error e => simp [emap, hfa] at h
  | ok b =>
    cases hr : emap f rest with
    | error e => simp [emap, hfa, hr] at h
    | ok bs =>
      simp [emap, hfa, hr] at h
      exact ⟨b, bs, rfl, rfl, h.symm⟩

theorem mapping_loop_ok_id {jco : Matrix} {d obj : List (String × ℚ)}
    (h : mapping_loop jco d = .ok obj) : obj = d := by
  induction d generalizing obj with
  | nil => simp [mapping_loop] at h; exact h
  | cons p rest ih =>
    obtain ⟨nm, v⟩ := p
    by_cases hc : jco.col_names.contains nm = true
    · rw [mapping_loop, if_pos hc] at h
      cases hr : mapping_loop jco rest with
      | error e => rw [hr] at h; exact Except.noConfusion h
      | ok r =>
        rw [hr] at h
        simp only [Except.ok.injEq] at h
        rw [← h, ih hr]
    · rw [mapping_loop, if_neg hc] at h
      exact Except.noConfusion h

theorem resolve_pst_some_eq {fs : String → Option Pst} {jcoArg : JcoArg} {pst p : Pst}
    (h : resolve_pst fs jcoArg (some pst) = .ok p) : p = pst := by
  simp only [resolve_pst] at h
  split at h
  · split at h
    · split at h
      · exact Except.noConfusion h
      · exact (Except.ok.inj h).symm
    · exact Except.noConfusion h
  · exact Except.noConfusion h

theorem rhs_plain_lookup {pst : Pst} {oc : List String} {rhsd : List (String × ℚ)}
    (h : emap (fun n => (res_lookup pst n).map (fun v => (n, v))) oc = .ok rhsd)
    {n : String} (hn : n ∈ oc) :
    ∃ mu, res_lookup pst n = .ok mu ∧ dget rhsd n = .ok mu := by
  induction oc generalizing rhsd with
  | nil => cases hn
  | cons m rest ih =>
    obtain ⟨b, bs, hfm, hr, rfl⟩ := emap_cons_ok h
    cases hm : res_lookup pst m with
    | error e => rw [hm] at hfm; simp [Except.map] at hfm
    | ok v =>
      rw [hm] at hfm
      have hb : b = (m, v) := by
        simp only [Except.map, Except.ok.injEq] at hfm
        exact hfm.symm
      subst hb
      by_cases hmn : m = n
      · subst hmn
        exact ⟨v, hm, by simp [dget]⟩
      · have hn' : n ∈ rest := by
          rcases List.mem_cons.mp hn with h' | h'
          · exact absurd h'.symm hmn
          · exact h'
        obtain ⟨mu, hlk, hdg⟩ := ih hr hn'
        exact ⟨mu, hlk, by rw [dget_cons_ne hmn]; exact hdg⟩

theorem rhs_loop_spec {stdO : String → ℚ} {pst : Pst} {ops : List (String × String)}
    {pv : ℚ} {oc : List String} {rhsd : List (String × ℚ)}
    (h : rhs_loop stdO pst ops pv oc = .ok rhsd) {n : String} (hn : n ∈ oc) :
    ∃ mu op, res_lookup pst n = .ok mu ∧ dget ops n = .ok op ∧
      ((op = "l" ∧ dget rhsd n = .ok (mu - pv * stdO n)) ∨
       (op = "g" ∧ dget rhsd n = .ok (mu + pv * stdO n))) := by
  induction oc generalizing rhsd with
  | nil => cases hn
  | cons m rest ih =>
    rw [rhs_loop] at h
    cases hm : res_lookup pst m with
    | error e => rw [hm] at h; exact Except.noConfusion h
    | ok mu0 =>
      rw [hm] at h
      simp only at h
      cases hop : dget ops m with
      | error e => rw [hop] at h; exact Except.noConfusion h
      | ok op0 =>
        rw [hop] at h
        simp only at h
        by_cases hl : op0 = "l"
        · rw [if_pos hl] at h
          cases hr : rhs_loop stdO pst ops pv rest with
          | error e => rw [hr] at h; exact Except.noConfusion h
          | ok r0 =>
            rw [hr] at h
            simp only [Except.ok.injEq] at h
            by_cases hmn : m = n
            · subst hmn
              exact ⟨mu0, op0, hm, hop, Or.inl ⟨hl, by rw [← h]; simp [dget]⟩⟩
            · have hn' : n ∈ rest := by
                rcases List.mem_cons.mp hn with h' | h'
                · exact absurd h'.symm hmn
                · exact h'
              obtain ⟨mu, op, hlk, hgo, hcase⟩ := ih hr hn'
              refine ⟨mu, op, hlk, hgo, ?_⟩
              rw [← h]
              rcases hcase with ⟨ho, hd⟩ | ⟨ho, hd⟩
              · exact Or.inl ⟨ho, by rw [dget_cons_ne hmn]; exact hd⟩
              · exact Or.inr ⟨ho, by rw [dget_cons_ne hmn]; exact hd⟩
        · rw [if_neg hl] at h
          by_cases hg : op0 = "g"
          · rw [if_pos hg] at h
            cases hr : rhs_loop stdO pst ops pv rest with
            | error e => rw [hr] at h; exact Except.noConfusion h
            | ok r0 =>
              rw [hr] at h
              simp only [Except.ok.injEq] at h
              by_cases hmn : m = n
              · subst hmn
                exact ⟨mu0, op0, hm, hop, Or.inr ⟨hg, by rw [← h]; simp [dget]⟩⟩
              · have hn' : n ∈ rest := by
                  rcases List.mem_cons.mp hn with h' | h'
                  · exact absurd h'.symm hmn
                  · exact h'
                obtain ⟨mu, op, hlk, hgo, hcase⟩ := ih hr hn'
                refine ⟨mu, op, hlk, hgo, ?_⟩
                rw [← h]
                rcases hcase with ⟨ho, hd⟩ | ⟨ho, hd⟩
                · exact Or.inl ⟨ho, by rw [dget_cons_ne hmn]; exact hd⟩
                · exact Or.inr ⟨ho, by rw [dget_cons_ne hmn]; exact hd⟩
          · rw [if_neg hg] at h
            exact Except.noConfusion h

theorem compute_rhs_risk_spec {stdO : String → ℚ} {sqrt2 : ℚ} {erfinv : ℚ → ℚ}
    {jco : Matrix} {pst : Pst} {dvs oc : List String} {ops : List (String × String)}
    {risk : ℚ} {rhsd : List (String × ℚ)} (hr : risk ≠ half)
    (h : compute_rhs stdO sqrt2 erfinv jco pst dvs oc ops risk = .ok rhsd)
    {n : String} (hn : n ∈ oc) :
    ∃ mu op, res_lookup pst n = .ok mu ∧ dget ops n = .ok op ∧
      ((op = "l" ∧ dget rhsd n = .ok (mu - probit_val sqrt2 erfinv risk * stdO n)) ∨
       (op = "g" ∧ dget rhsd n = .ok (mu + probit_val sqrt2 erfinv risk * stdO n))) := by
  rw [compute_rhs, if_neg hr] at h
  split at h
  · exact Except.noConfusion h
  · exact rhs_loop_spec h hn

/-! ## Concrete example data used by counterexamples and witnesses -/

/-- A 1x1 system: one less-than constraint `c1`, one decision variable `p1`
with current value 1 and bounds [0, 10], residual 5. -/
def c1M : Matrix := ⟨["c1"], ["p1"], [[2]]⟩

def c1Pst : Pst := ⟨"t.pst", [("c1", "l")], [("p1", ⟨1, 10, 0⟩)], some [("c1", 5)]⟩

/-- Run with an explicit objective mapping `{p1: 42}` whose key is exactly
the decision-variable (matrix column) name. -/
def c1Run : Outcome :=
  to_mps (fun _ => none) (fun _ => 0) 0 id (.mat c1M) (.mapping [("p1", 42)])
    (some [("c1", "l")]) (some c1Pst) none (some "t.mps") half

/-- C1 counterexample: the call succeeds, the explicit objective mapping
assigns coefficient 42 to `p1` (and the in-memory objective dict records it),
yet the objective line serialized for `p1` in the COLUMNS section carries the
parameter's current value 1 (`parval1`), not 42. -/
theorem C1_counterexample :
    c1Run.result.isOk = true ∧
    MpsLine.colEntry "p1" "obj_func" 1 ∈ result_lines c1Run ∧
    MpsLine.colEntry "p1" "obj_func" 42 ∉ result_lines c1Run ∧
    dget (ok_result c1Run).obj "p1" = .ok 42 := by decide

/-- C2: normalization of the symbolic form `"="`.  Because
`OPERATOR_SYMBOLS.index("=")` is 2 (the first of the two `"="` entries) and
`OPERATOR_WORDS[2]` is `"n"`, the symbolic equality sense normalizes to the
objective code `"n"`, not to the equality code `"e"`; the one-letter code
`"n"` is itself accepted even though it is not one of the three constraint
kinds.  `"<="`/`">="` and the one-letter codes behave as the claim states,
and unrecognized tokens raise. -/
theorem C2_eq_symbol_normalizes_to_n :
    parse_operator "=" = .ok "n" ∧
    parse_operator "<=" = .ok "l" ∧
    parse_operator ">=" = .ok "g" ∧
    parse_operator "e" = .ok "e" ∧
    parse_operator "n" = .ok "n" ∧
    parse_operator "foo" =
      .error (.exception "operator foo not in [l,g,n,e] or [<=,>=,=,=]") ∧
    ("n" : String) ≠ "e" := by decide

/-- A 12-character decision-variable name, shortened to `longpar0`. -/
def c3M : Matrix := ⟨["c1"], ["longparname1"], [[2]]⟩

def c3Pst : Pst :=
  ⟨"t.pst", [("c1", "l")], [("longparname1", ⟨3, 10, 0⟩)], some [("c1", 5)]⟩

def c3Run : Outcome :=
  to_mps (fun _ => none) (fun _ => 0) 0 id (.mat c3M) (.mapping [("longparname1", 7)])
    (some [("c1", "l")]) (some c3Pst) none (some "t.mps") half

/-- Is this line a BOUNDS entry for the given variable name? -/
def is_bound_for (nm : String) : MpsLine → Bool
  | .boundEntry _ _ n _ => n == nm
  | _ => false

/-- Is this line a COLUMNS entry for the given variable name? -/
def is_col_for (nm : String) : MpsLine → Bool
  | .colEntry n _ _ => n == nm
  | _ => false

/-- C3: with the 12-character decision variable `longparname1`, the call
succeeds, every COLUMNS line uses the shortened name `longpar0`, but both
BOUNDS lines carry the original unshortened name: the shortened form is not
applied consistently across the two sections. -/
theorem C3_bounds_keep_long_name :
    c3Run.result.isOk = true ∧
    dgetD (ok_result c3Run).new_decision_names "longparname1" "" = "longpar0" ∧
    (result_lines c3Run).countP (is_col_for "longpar0") = 2 ∧
    (result_lines c3Run).countP (is_col_for "longparname1") = 0 ∧
    (result_lines c3Run).countP (is_bound_for "longparname1") = 2 ∧
    (result_lines c3Run).countP (is_bound_for "longpar0") = 0 := by decide

/-- Eleven constraint names of length 11, all requiring shortening in the
same namespace. -/
def c4Names : List String :=
  ["constraint0", "constraint1", "constraint2", "constraint3", "constraint4",
   "constraint5", "constraint6", "constraint7", "constraint8", "constraint9",
   "constraint10"]

/-- C4 counterexample: the eleventh long name receives the two-digit counter
10, so its shortened form `constra10` has nine characters — the shortening
scheme does produce a name longer than 8 characters. -/
theorem C4_counterexample :
    dgetD (shorten_names c4Names) "constraint10" "" = "constra10" ∧
    ("constra10" : String).length = 9 ∧
    (shorten_names c4Names).any (fun p => decide (8 < p.2.length)) = true := by decide

/-- C8: when the matrix is passed as an in-memory object and `pst` is
omitted, the local `pst_name` of line 47 was never assigned, so line 53
raises the unbound-local `NameError` — no conventional control-file name is
derived and no descriptive missing-metadata error is reached, whatever the
other arguments and however the file system would have answered. -/
theorem C8_inmemory_matrix_unbound_pst_name (fs : String → Option Pst)
    (stdO : String → ℚ) (sqrt2 : ℚ) (erfinv : ℚ → ℚ) (m : Matrix)
    (obj_func : ObjFunc) (ocs0 : Option (List (String × String)))
    (dvn0 : Option DecVarArg) (mps0 : Option String) (risk : ℚ) :
    (to_mps fs stdO sqrt2 erfinv (.mat m) obj_func ocs0 none dvn0 mps0 risk).result
      = .error (.nameError "pst_name") := rfl

/-- Metadata for the C10 counterexample: the observation exists (lower-case)
in the control file, the residuals table and the matrix rows, but the
caller's sense dict keys it with upper case. -/
def c10Pst : Pst := ⟨"t.pst", [("obs1", "foo")], [("p1", ⟨1, 10, 0⟩)], some [("obs1", 5)]⟩

def c10M : Matrix := ⟨["obs1"], ["p1"], [[2]]⟩

def c10Run : Outcome :=
  to_mps (fun _ => none) (fun _ => 0) 0 id (.mat c10M) (.mapping [("p1", 1)])
    (some [("OBS1", "l")]) (some c10Pst) none (some "t.mps") half

/-- C10 counterexample: with the upper-case key `OBS1`, line 101 rebinds
`obs_name` to `obs1` before line 114 pops it, so `pop("obs1")` raises a
`KeyError` and the caller's dict still holds the original entry — the key is
neither removed nor re-inserted in lower-cased form. -/
theorem C10_counterexample :
    c10Run.result = .error (.keyError "obs1") ∧
    c10Run.sense_out = some [("OBS1", "l")] ∧
    c10Run.sense_out ≠ some [("obs1", "l")] := by decide

/-! ## General claim theorems over the pipeline -/

/-- C1 (amended): for every successful call whose objective is an explicit
name-to-coefficient mapping, the objective line serialized in the COLUMNS
section for each decision variable carries the parameter's current value
(`parval1` from the control-file metadata), independent of the mapping; the
mapping is recorded unchanged only in the in-memory objective dict, and the
objective row is named `obj_func`. -/
theorem C1_columns_obj_is_parval1 {fs : String → Option Pst} {stdO : String → ℚ}
    {sqrt2 : ℚ} {erfinv : ℚ → ℚ} {jcoArg : JcoArg} {dmap : List (String × ℚ)}
    {ocs0 : Option (List (String × String))} {pst0 : Option Pst}
    {dvn0 : Option DecVarArg} {mps0 : Option String} {risk : ℚ} {r : MpsResult}
    (h : (to_mps fs stdO sqrt2 erfinv jcoArg (.mapping dmap) ocs0 pst0 dvn0 mps0
            risk).result = .ok r)
    {dn : String} (hdn : dn ∈ r.order_dec_var) {pd : ParRec}
    (hpd : dget r.pst_used.parameter_data dn = .ok pd) :
    MpsLine.colEntry (dgetD r.new_decision_names dn "") r.obj_name pd.parval1 ∈ r.lines ∧
    r.obj = dmap ∧ r.obj_name = "obj_func" := by
  obtain ⟨_, _, _, _, _, _, _, _, hD, _, hW⟩ := to_mps_ok h
  have hobj : r.obj = dmap ∧ r.obj_name = "obj_func" := by
    rw [build_obj] at hD
    cases hml : mapping_loop jcoArg.matrix dmap with
    | error e => rw [hml] at hD; exact Except.noConfusion hD
    | ok obj =>
      rw [hml] at hD
      simp only [Except.ok.injEq, Prod.mk.injEq] at hD
      exact ⟨hD.1.symm.trans (mapping_loop_ok_id hml), hD.2.symm⟩
  obtain ⟨rls, cls, rhls, bls, _, h2, _, _, hl⟩ := write_lines_ok hW
  have hmem := col_lines_obj_mem h2 hdn hpd
  refine ⟨?_, hobj⟩
  rw [hl]
  simp only [List.mem_append, List.mem_cons]
  tauto

def c1wM : Matrix := ⟨["c1"], ["pvar"], [[2]]⟩

def c1wPst : Pst := ⟨"t.pst", [("c1", "l")], [("pvar", ⟨9, 10, 0⟩)], some [("c1", 5)]⟩

def c1wRun : Outcome :=
  to_mps (fun _ => none) (fun _ => 0) 0 id (.mat c1wM) (.mapping [("pvar", 42)])
    (some [("c1", "l")]) (some c1wPst) none (some "t.mps") half

theorem C1_columns_obj_is_parval1_witness :
    MpsLine.colEntry (dgetD (ok_result c1wRun).new_decision_names "pvar" "")
        (ok_result c1wRun).obj_name
        (ParRec.mk (9 : ℚ) 10 0).parval1 ∈ (ok_result c1wRun).lines ∧
    (ok_result c1wRun).obj = [("pvar", 42)] ∧
    (ok_result c1wRun).obj_name = "obj_func" :=
  @C1_columns_obj_is_parval1 (fun _ => none) (fun _ => 0) 0 id (.mat c1wM)
    [("pvar", 42)] (some [("c1", "l")]) (some c1wPst) none (some "t.mps") half
    (ok_result c1wRun) (by decide) "pvar" (by decide) ⟨9, 10, 0⟩ (by decide)

/-- C5: for every successful call, the row-entry lines of the ROWS section
are exactly the resolved constraints, in the matrix's native row order
restricted to the constraint set (each with its operator and resolved name),
followed by the objective row with operator code `n` as the single last
line. -/
theorem C5_rows_section {fs : String → Option Pst} {stdO : String → ℚ} {sqrt2 : ℚ}
    {erfinv : ℚ → ℚ} {jcoArg : JcoArg} {obj_func : ObjFunc}
    {ocs0 : Option (List (String × String))} {pst0 : Option Pst}
    {dvn0 : Option DecVarArg} {mps0 : Option String} {risk : ℚ} {r : MpsResult}
    (h : (to_mps fs stdO sqrt2 erfinv jcoArg obj_func ocs0 pst0 dvn0 mps0 risk).result
          = .ok r) :
    rowsSection r.lines
      = r.order_obs_constraints.map
          (fun n => MpsLine.rowEntry (dgetD r.operators n "")
            (dgetD r.new_constraint_names n "")) ++
        [MpsLine.rowEntry "n" r.obj_name] ∧
    r.order_obs_constraints
      = jcoArg.matrix.row_names.filter (fun n => hasKey r.sense_final n) := by
  obtain ⟨_, _, _, _, hoc, _, _, _, _, _, hW⟩ := to_mps_ok h
  exact ⟨rowsSection_write hW, hoc⟩

def c5M : Matrix := ⟨["c1", "c2", "fobs"], ["p1"], [[2], [3], [7]]⟩

def c5Pst : Pst :=
  ⟨"t.pst", [("c1", "l"), ("c2", "g"), ("fobs", "n")], [("p1", ⟨1, 10, 0⟩)],
   some [("c1", 5), ("c2", 6)]⟩

def c5Run : Outcome :=
  to_mps (fun _ => none) (fun _ => 0) 0 id (.mat c5M) .unspecified
    (some [("c1", "l"), ("c2", "g")]) (some c5Pst) none (some "t.mps") half

theorem C5_rows_section_witness :
    rowsSection (ok_result c5Run).lines
      = (ok_result c5Run).order_obs_constraints.map
          (fun n => MpsLine.rowEntry (dgetD (ok_result c5Run).operators n "")
            (dgetD (ok_result c5Run).new_constraint_names n "")) ++
        [MpsLine.rowEntry "n" (ok_result c5Run).obj_name] ∧
    (ok_result c5Run).order_obs_constraints
      = (JcoArg.mat c5M).matrix.row_names.filter
          (fun n => hasKey (ok_result c5Run).sense_final n) :=
  @C5_rows_section (fun _ => none) (fun _ => 0) 0 id (.mat c5M) .unspecified
    (some [("c1", "l"), ("c2", "g")]) (some c5Pst) none (some "t.mps") half
    (ok_result c5Run) (by decide)

/-- C7: at the default risk level 0.5, the RHS of each constraint is exactly
the raw residual from the metadata's residuals table: it is recorded
unchanged in the rhs dict, and the RHS line written for the constraint
carries it. -/
theorem C7_rhs_is_raw_residual {fs : String → Option Pst} {stdO : String → ℚ}
    {sqrt2 : ℚ} {erfinv : ℚ → ℚ} {jcoArg : JcoArg} {obj_func : ObjFunc}
    {ocs0 : Option (List (String × String))} {pst0 : Option Pst}
    {dvn0 : Option DecVarArg} {mps0 : Option String} {r : MpsResult}
    (h : (to_mps fs stdO sqrt2 erfinv jcoArg obj_func ocs0 pst0 dvn0 mps0
            half).result = .ok r)
    {n : String} (hn : n ∈ r.order_obs_constraints) :
    ∃ mu, res_lookup r.pst_used n = .ok mu ∧ dget r.rhs n = .ok mu ∧
      MpsLine.rhsEntry "rhs" (dgetD r.new_constraint_names n "") mu ∈ r.lines := by
  obtain ⟨_, _, _, _, _, _, hncn, _, _, hE, hW⟩ := to_mps_ok h
  rw [compute_rhs, if_pos rfl] at hE
  obtain ⟨mu, hlk, hdg⟩ := rhs_plain_lookup hE hn
  have hkey : ∃ s, dget r.new_constraint_names n = .ok s := by
    rw [hncn]
    exact shorten_names_key hn
  obtain ⟨cnm, hcnm⟩ := hkey
  obtain ⟨rls, cls, rhls, bls, _, _, h3, _, hl⟩ := write_lines_ok hW
  have hmem := rhs_lines_mem h3 hn hcnm hdg
  refine ⟨mu, hlk, hdg, ?_⟩
  rw [dget_ok_dgetD "" hcnm, hl]
  simp only [List.mem_append, List.mem_cons]
  tauto

def c7M : Matrix := ⟨["c1", "c2"], ["p1"], [[2], [3]]⟩

def c7Pst : Pst :=
  ⟨"t.pst", [("c1", "l"), ("c2", "g")], [("p1", ⟨1, 10, 0⟩)],
   some [("c1", 5), ("c2", 6)]⟩

def c7Run : Outcome :=
  to_mps (fun _ => none) (fun _ => 0) 0 id (.mat c7M) (.mapping [("p1", 4)])
    (some [("c1", "l"), ("c2", "g")]) (some c7Pst) none (some "t.mps") half

theorem C7_rhs_is_raw_residual_witness :
    ∃ mu, res_lookup (ok_result c7Run).pst_used "c2" = .ok mu ∧
      dget (ok_result c7Run).rhs "c2" = .ok mu ∧
      MpsLine.rhsEntry "rhs" (dgetD (ok_result c7Run).new_constraint_names "c2" "") mu
        ∈ (ok_result c7Run).lines :=
  @C7_rhs_is_raw_residual (fun _ => none) (fun _ => 0) 0 id (.mat c7M)
    (.mapping [("p1", 4)]) (some [("c1", "l"), ("c2", "g")]) (some c7Pst) none
    (some "t.mps") (ok_result c7Run) (by decide) "c2" (by decide)

/-- C6: at any risk level other than 0.5, every constraint RHS of a
successful call is the mean residual shifted by `offset * std`, where
`offset = probit_val sqrt2 erfinv risk = sqrt(2) * erfinv(2*risk - 1)` and
`std` is the posterior standard deviation supplied by the uncertainty
collaborator: shifted down when the constraint's operator is `l`, up when it
is `g`.  The operator of every constraint of a successful call is forced to
be `l` or `g` — with any other operator the loop raises
`NotImplementedError` instead of producing a value, so no result exists. -/
theorem C6_risk_shifted_rhs {fs : String → Option Pst} {stdO : String → ℚ}
    {sqrt2 : ℚ} {erfinv : ℚ → ℚ} {jcoArg : JcoArg} {obj_func : ObjFunc}
    {ocs0 : Option (List (String × String))} {pst0 : Option Pst}
    {dvn0 : Option DecVarArg} {mps0 : Option String} {risk : ℚ} {r : MpsResult}
    (hr : risk ≠ half)
    (h : (to_mps fs stdO sqrt2 erfinv jcoArg obj_func ocs0 pst0 dvn0 mps0 risk).result
          = .ok r)
    {n : String} (hn : n ∈ r.order_obs_constraints) :
    ∃ mu op, res_lookup r.pst_used n = .ok mu ∧ dget r.operators n = .ok op ∧
      ((op = "l" ∧ dget r.rhs n = .ok (mu - probit_val sqrt2 erfinv risk * stdO n)) ∨
       (op = "g" ∧ dget r.rhs n = .ok (mu + probit_val sqrt2 erfinv risk * stdO n))) := by
  obtain ⟨_, _, _, _, _, _, _, _, _, hE, _⟩ := to_mps_ok h
  exact compute_rhs_risk_spec hr hE hn

def c6M : Matrix := ⟨["c1", "c2"], ["p1", "q1"], [[2, 3], [4, 5]]⟩

def c6Pst : Pst :=
  ⟨"t.pst", [("c1", "l"), ("c2", "g")], [("p1", ⟨1, 10, 0⟩), ("q1", ⟨1, 2, 0⟩)],
   some [("c1", 5), ("c2", 6)]⟩

/-- A chance-constrained run: `q1` stays a non-decision (uncertain)
parameter, risk is 3/4. -/
def c6Run : Outcome :=
  to_mps (fun _ => none) (fun _ => 1) 1 id (.mat c6M) (.mapping [("p1", 4)])
    (some [("c1", "l"), ("c2", "g")]) (some c6Pst) (some (.list ["p1"]))
    (some "t.mps") (mkRat 3 4)

theorem C6_risk_shifted_rhs_witness :
    ∃ mu op, res_lookup (ok_result c6Run).pst_used "c1" = .ok mu ∧
      dget (ok_result c6Run).operators "c1" = .ok op ∧
      ((op = "l" ∧ dget (ok_result c6Run).rhs "c1"
          = .ok (mu - probit_val 1 id (mkRat 3 4) * 1)) ∨
       (op = "g" ∧ dget (ok_result c6Run).rhs "c1"
          = .ok (mu + probit_val 1 id (mkRat 3 4) * 1))) :=
  @C6_risk_shifted_rhs (fun _ => none) (fun _ => 1) 1 id (.mat c6M)
    (.mapping [("p1", 4)]) (some [("c1", "l"), ("c2", "g")]) (some c6Pst)
    (some (.list ["p1"])) (some "t.mps") (mkRat 3 4) (ok_result c6Run)
    (by decide) rfl "c1" (by decide)

theorem group_members_pos_iff (pst : Pst) :
    0 < (group_members pst "n").length ↔ "n" ∈ pst.observation_data.map Prod.snd := by
  unfold group_members
  rw [List.length_map, List.length_pos]
  constructor
  · intro h
    obtain ⟨p, hp⟩ := List.exists_mem_of_ne_nil _ h
    obtain ⟨hpd, hpn⟩ := List.mem_filter.mp hp
    exact List.mem_map.mpr ⟨p, hpd, by simpa using hpn⟩
  · intro h hnil
    obtain ⟨p, hpd, hpn⟩ := List.mem_map.mp h
    have hmem : p ∈ pst.observation_data.filter (fun p => decide (p.2 = "n")) :=
      List.mem_filter.mpr ⟨hpd, by simp [hpn]⟩
    rw [hnil] at hmem
    exact List.not_mem_nil p hmem

theorem obs_groups_n_iff (pst : Pst) :
    pst.obs_groups.contains "n" = true ↔ 0 < (group_members pst "n").length := by
  rw [group_members_pos_iff]
  unfold Pst.obs_groups
  rw [List.elem_iff, List.mem_dedup]

/-- C9: with `obj_func` unspecified, a call (with in-memory metadata `pst`)
reaches a successful result only when exactly one observation carries the
objective group tag `n`; with zero such observations the objective stage
raises the descriptive no-group exception, and with more than one it raises
the descriptive single-objective assertion. -/
theorem C9_unspecified_objective (fs : String → Option Pst) (stdO : String → ℚ)
    (sqrt2 : ℚ) (erfinv : ℚ → ℚ) (jcoArg : JcoArg)
    (ocs0 : Option (List (String × String))) (pst : Pst) (dvn0 : Option DecVarArg)
    (mps0 : Option String) (risk : ℚ) (jco2 : Matrix) (od2 : List String) :
    ((to_mps fs stdO sqrt2 erfinv jcoArg .unspecified ocs0 (some pst) dvn0 mps0
        risk).result.isOk = true → (group_members pst "n").length = 1) ∧
    ((group_members pst "n").length = 0 →
      build_obj jco2 pst od2 .unspecified
        = .error (.exception "to_mps(): obj_func is None but no obs group named n")) ∧
    (1 < (group_members pst "n").length →
      build_obj jco2 pst od2 .unspecified
        = .error (.assertionError
            "to_mps(): n obj_func group has more  than one member, mps only support one obj")) := by
  refine ⟨?_, ?_, ?_⟩
  · intro hok
    cases hres : (to_mps fs stdO sqrt2 erfinv jcoArg .unspecified ocs0 (some pst)
        dvn0 mps0 risk).result with
    | error e => rw [hres] at hok; exact Bool.noConfusion hok
    | ok r =>
      obtain ⟨hA, _, _, _, _, _, _, _, hD, _, _⟩ := to_mps_ok hres
      have hpeq := resolve_pst_some_eq hA
      rw [hpeq] at hD
      simp only [build_obj] at hD
      by_cases hc : pst.obs_groups.contains "n" = true
      · rw [if_pos hc] at hD
        by_cases hleq : (group_members pst "n").length = 1
        · exact hleq
        · rw [if_neg hleq] at hD
          exact Except.noConfusion hD
      · rw [if_neg hc] at hD
        exact Except.noConfusion hD
  · intro h0
    have hc : "n" ∉ pst.obs_groups := by
      intro hmem
      have hct : pst.obs_groups.contains "n" = true := by simp [List.elem_iff, hmem]
      rw [obs_groups_n_iff] at hct
      omega
    simp [build_obj, hc]
  · intro h1
    have hc : "n" ∈ pst.obs_groups := by
      have hct : pst.obs_groups.contains "n" = true := (obs_groups_n_iff pst).mpr (by omega)
      simpa [List.elem_iff] using hct
    have hlen : ¬((group_members pst "n").length = 1) := by omega
    simp [build_obj, hc, hlen]

def c9M : Matrix := ⟨["c1", "fobs"], ["p1"], [[2], [7]]⟩

def c9Pst : Pst :=
  ⟨"t.pst", [("c1", "l"), ("fobs", "n")], [("p1", ⟨1, 10, 0⟩)], some [("c1", 5)]⟩

def c9Run : Outcome :=
  to_mps (fun _ => none) (fun _ => 0) 0 id (.mat c9M) .unspecified
    (some [("c1", "l")]) (some c9Pst) none (some "t.mps") half

theorem C9_unspecified_objective_witness : (group_members c9Pst "n").length = 1 :=
  (C9_unspecified_objective (fun _ => none) (fun _ => 0) 0 id (.mat c9M)
    (some [("c1", "l")]) c9Pst none (some "t.mps") half c9M ["p1"]).1 (by decide)

theorem shorten_go_mem {p : String × String} :
    ∀ {names : List String} {c : Nat}, p ∈ shorten_go c names →
      (p.1.length ≤ 8 ∧ p.2 = p.1) ∨
      (8 < p.1.length ∧
        ∃ k, c ≤ k ∧ k < c + names.countP (fun n => decide (8 < n.length)) ∧
          p.2 = pyTake p.1 7 ++ toString k)
  | [], _, hp => absurd hp (List.not_mem_nil p)
  | m :: rest, c, hp => by
    rw [shorten_go] at hp
    by_cases hm : m.length > 8
    · have hcount : (m :: rest).countP (fun n => decide (8 < n.length))
          = rest.countP (fun n => decide (8 < n.length)) + 1 := by
        simp [List.countP_cons, hm]
      rw [if_pos hm] at hp
      rcases List.mem_cons.mp hp with rfl | hp'
      · exact Or.inr ⟨hm, c, le_refl c, by omega, rfl⟩
      · rcases shorten_go_mem hp' with hleft | ⟨hgt, k, hk1, hk2, heq⟩
        · exact Or.inl hleft
        · exact Or.inr ⟨hgt, k, by omega, by omega, heq⟩
    · have hcount : (m :: rest).countP (fun n => decide (8 < n.length))
          = rest.countP (fun n => decide (8 < n.length)) := by
        simp [List.countP_cons, hm]
      rw [if_neg hm] at hp
      rcases List.mem_cons.mp hp with rfl | hp'
      · refine Or.inl ⟨?_, rfl⟩
        simp only []
        omega
      · rcases shorten_go_mem hp' with hleft | ⟨hgt, k, hk1, hk2, heq⟩
        · exact Or.inl hleft
        · exact Or.inr ⟨hgt, k, hk1, by omega, heq⟩

theorem pyTake_length (s : String) (n : Nat) : (pyTake s n).length = min n s.length := by
  show (s.data.take n).length = min n s.data.length
  exact List.length_take n s.data

theorem toString_digit_length {k : Nat} (hk : k ≤ 9) : (toString k).length = 1 := by
  interval_cases k <;> rfl

/-- C4 (amended): a name of at most 8 characters is mapped to itself; a
longer name is mapped to its first 7 characters followed by a zero-based
per-namespace counter (the mapping is a pure function of the input list, so
repeated runs give the same mapping); and every shortened name has at most 8
characters provided at most ten names of the namespace require shortening —
an eleventh long name receives the two-digit counter 10 and a 9-character
shortened form. -/
theorem C4_shortening_amended {names : List String} {p : String × String}
    (hc : names.countP (fun n => decide (8 < n.length)) ≤ 10)
    (hp : p ∈ shorten_names names) :
    p.2.length ≤ 8 ∧ (p.1.length ≤ 8 → p.2 = p.1) ∧
    (8 < p.1.length → ∃ k, k ≤ 9 ∧ p.2 = pyTake p.1 7 ++ toString k) := by
  rcases shorten_go_mem hp with ⟨hle, heq⟩ | ⟨hgt, k, hk0, hkc, heq⟩
  · exact ⟨by rw [heq]; exact hle, fun _ => heq,
      fun hcontra => absurd hcontra (by omega)⟩
  · have hk9 : k ≤ 9 := by omega
    refine ⟨?_, fun hle' => by omega, fun _ => ⟨k, hk9, heq⟩⟩
    rw [heq, String.length_append, pyTake_length, toString_digit_length hk9]
    have : min 7 p.1.length = 7 := by omega
    omega

def c4wNames : List String := ["abcdefghij"]

theorem C4_shortening_amended_witness :
    ("abcdefg0" : String).length ≤ 8 ∧
    (("abcdefghij" : String).length ≤ 8 → ("abcdefg0" : String) = "abcdefghij") ∧
    (8 < ("abcdefghij" : String).length →
      ∃ k, k ≤ 9 ∧ ("abcdefg0" : String) = pyTake "abcdefghij" 7 ++ toString k) :=
  @C4_shortening_amended c4wNames ("abcdefghij", "abcdefg0") (by decide) (by decide)

theorem dset_append {α : Type} {d : List (String × α)} {k : String} {v : α}
    (hk : k ∉ d.map Prod.fst) : dset d k v = d ++ [(k, v)] := by
  induction d with
  | nil => rfl
  | cons p rest ih =>
    have hne : p.1 ≠ k := by
      intro he
      exact hk (by simp [← he])
    rw [dset, if_neg hne, ih (fun hm => hk (by simp [hm]))]
    rfl

theorem lower_loop_map {jco : Matrix} {pst : Pst} {l : List String}
    (h : ∀ dv ∈ l, pyLower dv ∈ jco.col_names ∧ pyLower dv ∈ pst.par_names) :
    lower_loop jco pst l = (l.map pyLower, none) := by
  induction l with
  | nil => rfl
  | cons dv rest ih =>
    obtain ⟨h1, h2⟩ := h dv (List.mem_cons_self dv rest)
    have ihr := ih (fun x hx => h x (List.mem_cons_of_mem dv hx))
    simp [lower_loop, h1, h2, ihr]

/-- Processing a sense dict whose keys are already lower case and pass all
validations pops each key and re-inserts it unchanged: the dict comes back
equal to the snapshot and no error is raised. -/
theorem senses_loop_lower {pst : Pst} {jco : Matrix} (snap : List (String × String)) :
    ∀ {done ops0 : List (String × String)},
    (∀ kv ∈ snap, pyLower kv.1 = kv.1 ∧ kv.1 ∈ pst.obs_names ∧
      kv.1 ∈ pst.res_names ∧ kv.1 ∈ jco.row_names ∧
      (parse_operator kv.2).isOk = true) →
    ((snap ++ done).map Prod.fst).Nodup →
    (senses_loop pst jco snap (snap ++ done) ops0).1 = done ++ snap ∧
    (senses_loop pst jco snap (snap ++ done) ops0).2.2 = none := by
  induction snap with
  | nil =>
    intro done ops0 _ _
    simp [senses_loop]
  | cons kv snap' ih =>
    obtain ⟨k, v⟩ := kv
    intro done ops0 h hnd
    obtain ⟨hk, ho, hr, hj, hp⟩ := h (k, v) (List.mem_cons_self _ _)
    simp only at hk ho hr hj hp
    have hknotin : k ∉ (snap' ++ done).map Prod.fst := by
      have hnd2 := hnd
      simp only [List.cons_append, List.map_cons] at hnd2
      exact (List.nodup_cons.mp hnd2).1
    cases hpo : parse_operator v with
    | error e =>
      rw [hpo] at hp
      simp [Except.isOk, Except.toBool] at hp
    | ok op =>
      have hstep : senses_loop pst jco ((k, v) :: snap') (((k, v) :: snap') ++ done) ops0
          = senses_loop pst jco snap' (snap' ++ (done ++ [(k, v)])) (dset ops0 k op) := by
        rw [List.cons_append, senses_loop]
        simp only [hk, hpo]
        simp only [List.elem_iff, ho, hr, hj, if_true]
        simp [dpop, dset_append hknotin, List.append_assoc]
      rw [hstep]
      have h' : ∀ kv ∈ snap', pyLower kv.1 = kv.1 ∧ kv.1 ∈ pst.obs_names ∧
          kv.1 ∈ pst.res_names ∧ kv.1 ∈ jco.row_names ∧
          (parse_operator kv.2).isOk = true :=
        fun x hx => h x (List.mem_cons_of_mem _ hx)
      have hperm : List.Perm (((k, v) :: (snap' ++ done)).map Prod.fst)
          ((snap' ++ (done ++ [(k, v)])).map Prod.fst) := by
        simp only [List.map_append, List.map_cons, List.map_nil]
        have hps := List.perm_append_singleton k (snap'.map Prod.fst ++ done.map Prod.fst)
        have := hps.symm
        refine List.Perm.trans this ?_
        simp [List.append_assoc]
      have hnd' : ((snap' ++ (done ++ [(k, v)])).map Prod.fst).Nodup := by
        refine hperm.nodup ?_
        simpa using hnd
      obtain ⟨ih1, ih2⟩ := ih h' hnd'
      refine ⟨?_, ih2⟩
      rw [ih1]
      simp

/-- C10 (amended): `to_mps` mutates the caller-supplied
`decision_var_names` list in place — each entry is replaced by its
lower-cased form, visible to the caller whether or not a later stage fails —
while a caller-supplied `obs_constraint_sense` dict whose keys are all
already lower case (and valid) is left with exactly its original entries:
each key is popped and re-inserted unchanged.  (A key containing an
upper-case letter is not re-keyed to lower case: the code pops the
lower-cased name, which is absent, and the call dies with a `KeyError`,
leaving the original entry in place.) -/
theorem C10_mutations_amended (fs : String → Option Pst) (stdO : String → ℚ)
    (sqrt2 : ℚ) (erfinv : ℚ → ℚ) (m : Matrix) (pst : Pst) (objF : ObjFunc)
    (mps0 : Option String) (risk : ℚ) (l : List String) (d0 : List (String × String))
    (hsub1 : m.row_names.all (fun n => pst.obs_names.contains n) = true)
    (hsub2 : m.col_names.all (fun n => pst.par_names.contains n) = true)
    (hres : pst.res.isSome = true)
    (hdv : ∀ dv ∈ l, pyLower dv ∈ m.col_names ∧ pyLower dv ∈ pst.par_names)
    (hkeys : ∀ kv ∈ d0, pyLower kv.1 = kv.1 ∧ kv.1 ∈ pst.obs_names ∧
      kv.1 ∈ pst.res_names ∧ kv.1 ∈ m.row_names ∧ (parse_operator kv.2).isOk = true)
    (hnd : (d0.map Prod.fst).Nodup) (hne : d0 ≠ []) :
    (to_mps fs stdO sqrt2 erfinv (.mat m) objF (some d0) (some pst)
        (some (.list l)) mps0 risk).dec_out = some (l.map pyLower) ∧
    (to_mps fs stdO sqrt2 erfinv (.mat m) objF (some d0) (some pst)
        (some (.list l)) mps0 risk).sense_out = some d0 := by
  have hA : resolve_pst fs (.mat m) (some pst) = .ok pst := by
    simp only [resolve_pst, JcoArg.matrix]
    rw [if_pos hsub1, if_pos hsub2]
    cases hres' : pst.res with
    | none => rw [hres'] at hres; simp at hres
    | some rl => simp [hres']
  have hdec : dec_stage m pst (some (.list l)) = (some (l.map pyLower), .ok (l.map pyLower)) := by
    simp [dec_stage, lower_loop_map hdv]
  have hsl := @senses_loop_lower pst m d0 [] [] hkeys (by simpa using hnd)
  simp only [List.append_nil] at hsl
  have hie : d0.isEmpty = false := by
    cases d0 with
    | nil => exact absurd rfl hne
    | cons a b => rfl
  have hsen : senses_stage m pst (some d0)
      = (some d0, .ok (d0, (senses_loop pst m d0 d0 []).2.1)) := by
    simp only [senses_stage, hie]
    rw [hsl.2]
    simp [hsl.1]
  constructor
  · simp only [to_mps, hA, JcoArg.matrix, hdec, hsen]
    repeat' split
    all_goals rfl
  · simp only [to_mps, hA, JcoArg.matrix, hdec, hsen]
    repeat' split
    all_goals rfl

def c10wM : Matrix := ⟨["obs1"], ["p1"], [[2]]⟩

def c10wPst : Pst :=
  ⟨"t.pst", [("obs1", "foo")], [("p1", ⟨1, 10, 0⟩)], some [("obs1", 5)]⟩

theorem C10_mutations_amended_witness :
    (to_mps (fun _ => none) (fun _ => 0) 0 id (.mat c10wM) (.mapping [("p1", 1)])
        (some [("obs1", "l")]) (some c10wPst) (some (.list ["P1"])) (some "t.mps")
        half).dec_out = some (["P1"].map pyLower) ∧
    (to_mps (fun _ => none) (fun _ => 0) 0 id (.mat c10wM) (.mapping [("p1", 1)])
        (some [("obs1", "l")]) (some c10wPst) (some (.list ["P1"])) (some "t.mps")
        half).sense_out = some [("obs1", "l")] :=
  C10_mutations_amended (fun _ => none) (fun _ => 0) 0 id c10wM c10wPst
    (.mapping [("p1", 1)]) (some "t.mps") half ["P1"] [("obs1", "l")]
    (by decide) (by decide) (by decide) (by decide) (by decide) (by decide) (by decide)

end PyEmuOpt
